import Mathlib

/-!
Verification of the mcmeta metadata synchronization service (Rust sources in
`mcmeta` and `libmcmeta`) against its natural-language specification.

Identifiers from the upstream data (version ids, long versions, classifiers,
hashes) are modelled as lists of characters (`Str`), so that the string
splitting and scanning done by the Rust code can be reasoned about directly.
`BTreeMap`/`HashMap` values are modelled as association lists with
insert-replaces-existing-key semantics; key-lookup behaviour is faithful,
physical ordering of entries is abstracted.
-/

namespace Mcmeta

/-- Identifier strings, modelled as lists of characters. -/
abbrev Str := List Char

/-- Lookup in an association map (first matching key wins, as in a map with
unique keys). -/
def mapLookup {α : Type} : List (Str × α) → Str → Option α
  | [], _ => none
  | (k, v) :: rest, key => if k = key then some v else mapLookup rest key

/-- Insert into an association map: replace the value at an existing key in
place, otherwise add the binding at the end.  Models `BTreeMap::insert` /
`HashMap::insert` up to physical entry order. -/
def mapInsert {α : Type} (key : Str) (v : α) : List (Str × α) → List (Str × α)
  | [] => [(key, v)]
  | (k, w) :: rest =>
    if k = key then (key, v) :: rest else (k, w) :: mapInsert key v rest

/-- Keys of an association map. -/
def mapKeys {α : Type} : List (Str × α) → List Str
  | [] => []
  | (k, _) :: rest => k :: mapKeys rest

/-!  ## MergeEngine (`libmcmeta/src/models/mod.rs`, `pub mod merge`)

The Rust strategies mutate their left argument; they are modelled as pure
functions returning the new left value. -/

/-- `merge::overwrite`: unconditional replace. -/
def mergeOverwrite {α : Type} (_left right : α) : α := right

/-- `merge::option::overwrite_none`: overwrite `left` with `right` only if
`left` is `None`. -/
def mergeOverwriteNone {α : Type} (left right : Option α) : Option α :=
  match left with
  | none => right
  | some v => some v

/-- `merge::option::overwrite_some`: overwrite `left` with `right` only if
`right` is `Some`. -/
def mergeOverwriteSome {α : Type} (left right : Option α) : Option α :=
  match right with
  | some v => some v
  | none => left

/-- `merge::option::recurse`: if both sides are `Some`, recursively merge with
the inner merge `m`; otherwise keep whichever side is present. -/
def mergeOptionRecurse {α : Type} (m : α → α → α) (left right : Option α) :
    Option α :=
  match right with
  | some rv =>
    match left with
    | some lv => some (m lv rv)
    | none => some rv
  | none => left

/-- `merge::vec::append` (from the `merge` crate): concatenate, left then
right. -/
def mergeVecAppend {α : Type} (left right : List α) : List α := left ++ right

/-- `merge::option_vec::append_some`: append the contents of `right` to `left`
if both are `Some`; replace if `left` is `None`. -/
def mergeOptionVecAppendSome {α : Type} (left right : Option (List α)) :
    Option (List α) :=
  match right with
  | some rv =>
    match left with
    | some lv => some (lv ++ rv)
    | none => some rv
  | none => left

/-- `merge::hashmap::overwrite_key`: insert/replace every binding of `right`
into `left` by key, no recursion. -/
def mergeMapOverwriteKey {α : Type} (left right : List (Str × α)) :
    List (Str × α) :=
  right.foldl (fun acc kv => mapInsert kv.1 kv.2 acc) left

/-- `merge::hashmap::recurse`: keys only in `right` are inserted, keys in both
are merged with the inner merge `m`, keys only in `left` are kept. -/
def mergeMapRecurse {α : Type} (m : α → α → α) (left right : List (Str × α)) :
    List (Str × α) :=
  right.foldl
    (fun acc kv =>
      match mapLookup acc kv.1 with
      | some lv => mapInsert kv.1 (m lv kv.2) acc
      | none => mapInsert kv.1 kv.2 acc)
    left

/-- `merge::option_hashmap::overwrite_key_some`. -/
def mergeOptionMapOverwriteKeySome {α : Type}
    (left right : Option (List (Str × α))) : Option (List (Str × α)) :=
  match right with
  | some rv =>
    match left with
    | some lv => some (mergeMapOverwriteKey lv rv)
    | none => some rv
  | none => left

/-- `merge::option_hashmap::recurse_some`. -/
def mergeOptionMapRecurseSome {α : Type} (m : α → α → α)
    (left right : Option (List (Str × α))) : Option (List (Str × α)) :=
  match right with
  | some rv =>
    match left with
    | some lv => some (mergeMapRecurse m lv rv)
    | none => some rv
  | none => left

/-!  Concrete descriptor types exercising the strategies
(`libmcmeta/src/models/mod.rs`). -/

/-- `MojangLibraryExtractRules`: a single `Vec<String>` field `exclude` whose
declared merge strategy is `merge::vec::append`. -/
structure MojangLibraryExtractRules where
  exclude : List Str
  deriving DecidableEq, Repr

/-- The derived `Merge` impl of `MojangLibraryExtractRules`: field-wise, the
`exclude` field uses `merge::vec::append`. -/
def mergeExtractRules (left right : MojangLibraryExtractRules) :
    MojangLibraryExtractRules :=
  { exclude := mergeVecAppend left.exclude right.exclude }

/-- C6 counterexample input: `MojangLibrary.extract` is a field using the
`recurse` strategy (`merge::option::recurse`), and its element type
`MojangLibraryExtractRules` has an `append`-strategy field. -/
def extractRulesInput : Option MojangLibraryExtractRules :=
  some { exclude := [(("a").toList)] }

/-!  ## GradleSpecifier (`libmcmeta/src/models/mod.rs`, `FromStr`/`Display`)

Rust's `str::split(c)` is modelled by `splitChar`: splitting the empty string
yields `[[]]`, and every occurrence of the separator starts a new piece. -/

/-- Model of Rust `str::split(c).collect::<Vec<_>>()`. -/
def splitChar (c : Char) : Str → List Str
  | [] => [[]]
  | a :: rest =>
    match splitChar c rest with
    | [] => [[]]
    | h :: t => if a = c then [] :: h :: t else (a :: h) :: t

/-- The default artifact extension. -/
def jarExt : Str := ("jar").toList

/-- `GradleSpecifier` (`libmcmeta/src/models/mod.rs`). -/
structure GradleSpecifier where
  group : Str
  artifact : Str
  version : Str
  extension : Option Str
  classifier : Option Str
  deriving DecidableEq, Repr

/-- `impl FromStr for GradleSpecifier`: split on `@` (at most one suffix is
honoured, and only when the split has exactly two parts), split the first part
on `:`, take group/artifact/version from the first three components, the
classifier from the fourth only when there are exactly four, and default the
extension to `jar`. -/
def GradleSpecifier.fromStr (s : Str) : Option GradleSpecifier :=
  let atSplit := splitChar '@' s
  match atSplit with
  | [] => none
  | first :: _ =>
    let components := splitChar ':' first
    match components.get? 0, components.get? 1, components.get? 2 with
    | some g, some a, some v =>
      some { group := g, artifact := a, version := v,
             extension :=
               some (if atSplit.length = 2 then atSplit.getD 1 [] else jarExt),
             classifier :=
               if components.length = 4 then components.get? 3 else none }
    | _, _, _ => none

/-- `impl Display for GradleSpecifier`: `group:artifact:version(:classifier)`
followed by `@extension` only when the extension is present and not `jar`. -/
def GradleSpecifier.display (g : GradleSpecifier) : Str :=
  let extPart : Str :=
    match g.extension with
    | some e => if e ≠ jarExt then '@' :: e else []
    | none => []
  match g.classifier with
  | some c =>
    g.group ++ ':' :: (g.artifact ++ ':' :: (g.version ++ ':' :: (c ++ extPart)))
  | none => g.group ++ ':' :: (g.artifact ++ ':' :: (g.version ++ extPart))

/-- Concrete specifier used by the C10 witness. -/
def sampleSpecifier : GradleSpecifier :=
  { group := ("net.minecraftforge").toList, artifact := ("forge").toList,
    version := ("1.19-41.0.1").toList, extension := some (("zip").toList),
    classifier := some (("installer").toList) }

/-!  ## Forge promotions (`mcmeta/src/storage/forge.rs`,
`update_forge_metadata`)

The promotion key regex
`(?P<mc>[^-]+)-(?P<promotion>(latest)|(recommended))(-(?P<branch>[a-zA-Z0-9\.]+))?`
is modelled by a specialised leftmost-first matcher: at each candidate start
position, `mc` must be the maximal nonempty run of non-`-` characters (the
class excludes `-`, and the following literal `-` rules out shorter runs),
followed by `latest` (tried first) or `recommended`, followed by an optional
`-branch` whose greedy nonempty class run is taken when available. -/

/-- The character class `[a-zA-Z0-9\.]` of the branch capture. -/
def isBranchChar (c : Char) : Bool := c.isAlphanum || c = '.'

/-- Captures of one promotion-key match. -/
structure PromoCaps where
  mc : Str
  promo : Str
  branch : Option Str
  deriving DecidableEq, Repr

/-- The optional `(-(?P<branch>[a-zA-Z0-9\.]+))?` suffix: present only when a
`-` follows and at least one branch-class character follows it. -/
def branchCapture (r : Str) : Option Str :=
  match r with
  | '-' :: cs =>
    let b := cs.takeWhile isBranchChar
    if b = [] then none else some b
  | _ => none

/-- Match of the promotion pattern anchored at the start of `s`. -/
def promoMatchAt (s : Str) : Option PromoCaps :=
  let w := s.takeWhile (fun c => c != '-')
  if w = [] then none
  else
    match s.drop w.length with
    | '-' :: r =>
      if (("latest").toList).isPrefixOf r then
        some ⟨w, ("latest").toList, branchCapture (r.drop 6)⟩
      else if (("recommended").toList).isPrefixOf r then
        some ⟨w, ("recommended").toList, branchCapture (r.drop 11)⟩
      else none
    | _ => none

/-- `Regex::captures` for the promotion pattern: the match at the leftmost
start position where one exists. -/
def findPromoMatch : Str → Option PromoCaps
  | [] => none
  | c :: rest =>
    match promoMatchAt (c :: rest) with
    | some m => some m
    | none => findPromoMatch rest

/-- Contribution of a single promotions entry `(key, shortversion)` to the
recommended set: a parsed key with no branch capture whose promotion word is
`recommended` contributes its short version; `latest` keys, branch-scoped
keys and keys that do not parse are skipped (the two latter with a log
message). -/
def promoContrib (entry : Str × Str) : Option Str :=
  match findPromoMatch entry.1 with
  | none => none
  | some caps =>
    if caps.branch.isSome then none
    else if caps.promo = ("recommended").toList then some entry.2
    else none

/-- The recommended set accumulated from the promotions document (membership
model of the Rust `HashSet<String>`). -/
def recommendedSet (promos : List (Str × Str)) : List Str :=
  promos.filterMap promoContrib

/-- A promotions key whose parse designates an upstream "latest". -/
def isLatestPromoKey (k : Str) : Bool :=
  match findPromoMatch k with
  | some m => m.promo == ("latest").toList
  | none => false

/-!  ## Forge long-version grammar (`update_forge_metadata`)

The anchored build-string regex
`^(?P<mc>[0-9a-zA-Z_\.]+)-(?P<ver>[0-9\.]+\.(?P<build>[0-9]+))(-(?P<branch>[a-zA-Z0-9\.]+))?$`
is modelled deterministically: none of the classes can match `-`, so `mc`
must be the maximal class run before the first `-`, `ver` the run up to the
next `-` (or the end), and the whole remainder after that the branch; within
`ver`, the build is the all-digits segment after the last `.` (any earlier
split would put a `.` inside the digit-only build capture). -/

/-- The `mc` character class `[0-9a-zA-Z_\.]`. -/
def isMcVersionChar (c : Char) : Bool := c.isAlphanum || c = '_' || c = '.'

/-- Captures of the anchored long-version match. -/
structure LongVersionCaps where
  mc : Str
  ver : Str
  build : Str
  branch : Option Str
  deriving DecidableEq, Repr

/-- Model of the anchored long-version regex match. -/
def longVersionCaps (s : Str) : Option LongVersionCaps :=
  let mc := s.takeWhile isMcVersionChar
  if mc = [] then none
  else
    match s.drop mc.length with
    | '-' :: rest =>
      let core := rest.takeWhile (fun c => c != '-')
      let after := rest.drop core.length
      let bRev := core.reverse.takeWhile (fun c => c != '.')
      match core.reverse.drop bRev.length with
      | '.' :: aRev =>
        let a := aRev.reverse
        let b := bRev.reverse
        if a = [] ∨ b = [] ∨ ¬(a.all fun c => c.isDigit || c = '.') ∨
            ¬(b.all Char.isDigit) then none
        else
          match after with
          | '-' :: br =>
            if br = [] ∨ ¬(br.all isBranchChar) then none
            else some ⟨mc, core, b, some br⟩
          | _ :: _ => none
          | [] => some ⟨mc, core, b, none⟩
      | _ => none
    | _ => none

/-- Digit run to a number (callers guarantee the run is all digits). -/
def digitsToNat (b : Str) : Nat :=
  b.foldl (fun acc c => acc * 10 + (c.toNat - 48)) 0

/-- Rust `str::parse::<i32>()` on an all-digit capture: fails only on i32
overflow. -/
def parseBuild (b : Str) : Option Int :=
  if b ≠ [] ∧ b.all Char.isDigit ∧ digitsToNat b ≤ 2147483647 then
    some (digitsToNat b)
  else none

/-- Rust `str::parse::<i32>()` on an arbitrary string: optional sign, at
least one digit, nothing else, value within i32 range. -/
def parseI32 (s : Str) : Option Int :=
  match s with
  | '+' :: ds =>
    if ds ≠ [] ∧ ds.all Char.isDigit ∧ digitsToNat ds ≤ 2147483647 then
      some (digitsToNat ds)
    else none
  | '-' :: ds =>
    if ds ≠ [] ∧ ds.all Char.isDigit ∧ digitsToNat ds ≤ 2147483648 then
      some (-(digitsToNat ds : Int))
    else none
  | ds =>
    if ds ≠ [] ∧ ds.all Char.isDigit ∧ digitsToNat ds ≤ 2147483647 then
      some (digitsToNat ds)
    else none

/-!  ## Forge data model (`libmcmeta/src/models/forge.rs`) -/

/-- `ForgeFile`. -/
structure ForgeFile where
  classifier : Str
  hash : Str
  extension : Str
  deriving DecidableEq, Repr

/-- `ForgeFile::filename`: `forge-<longversion>-<classifier>.<extension>`. -/
def ForgeFile.filename (f : ForgeFile) (longVersion : Str) : Str :=
  ("forge-").toList ++ longVersion ++ '-' :: f.classifier ++ '.' :: f.extension

/-- `ForgeFile::url`. -/
def ForgeFile.url (f : ForgeFile) (longVersion : Str) : Str :=
  ("https://maven.minecraftforge.net/net/minecraftforge/forge/").toList ++
    longVersion ++ '/' :: f.filename longVersion

/-- `ForgeEntry`. -/
structure ForgeEntry where
  long_version : Str
  mc_version : Str
  version : Str
  build : Int
  branch : Option Str
  latest : Option Bool
  recommended : Option Bool
  files : Option (List (Str × ForgeFile))
  deriving DecidableEq, Repr

/-- `ForgeMCVersionInfo` (`Default` is all-empty). -/
structure ForgeMCVersionInfo where
  latest : Option Str
  recommended : Option Str
  versions : List Str
  deriving DecidableEq, Repr

/-- `DerivedForgeIndex`. -/
structure DerivedForgeIndex where
  versions : List (Str × ForgeEntry)
  by_mc_version : List (Str × ForgeMCVersionInfo)
  deriving DecidableEq, Repr

/-!  ## Forge metadata update pipeline (`update_forge_metadata`) -/

/-- One per-item task of the forge metadata update: match the long version
against the anchored grammar, parse the build number as `i32`, and fetch the
per-version files manifest (abstracted as `filesOracle`; `none` is a download
or storage failure).  `none` overall models the task returning an error. -/
def processForgeVersionTask (rset : List Str)
    (filesOracle : Str → Option (List (Str × ForgeFile)))
    (pair : Str × Str) : Option ForgeEntry :=
  match longVersionCaps pair.2 with
  | none => none
  | some caps =>
    match parseBuild caps.build with
    | none => none
    | some buildNum =>
      match filesOracle pair.2 with
      | none => none
      | some files =>
        some { long_version := pair.2, mc_version := pair.1,
               version := caps.ver, build := buildNum, branch := caps.branch,
               latest := none,
               recommended := some (rset.contains caps.ver),
               files := some files }

/-- The body of the index-construction loop: insert the entry under its long
version, create the per-game-version record on first sight, append the long
version in discovery order, and propagate an explicit `recommended`. -/
def addVersionToIndex (idx : DerivedForgeIndex) (fv : ForgeEntry) :
    DerivedForgeIndex :=
  let versions1 := mapInsert fv.long_version fv idx.versions
  let byMc0 :=
    if (mapLookup idx.by_mc_version fv.mc_version).isSome then
      idx.by_mc_version
    else mapInsert fv.mc_version ⟨none, none, []⟩ idx.by_mc_version
  let info := (mapLookup byMc0 fv.mc_version).getD ⟨none, none, []⟩
  let info1 := { info with versions := info.versions ++ [fv.long_version] }
  let info2 :=
    if fv.recommended = some true then
      { info1 with recommended := some fv.long_version }
    else info1
  { versions := versions1, by_mc_version := mapInsert fv.mc_version info2 byMc0 }

/-- Fold the per-item results into the index. -/
def buildIndex (idx : DerivedForgeIndex) (fvs : List ForgeEntry) :
    DerivedForgeIndex :=
  fvs.foldl addVersionToIndex idx

/-- The pre-pass refreshing `recommended` on entries already in the local
index; `none` models the `panic!` on a game version missing from
`by_mc_version`. -/
def updateLocalRecommendation (rset : List Str) (idx : DerivedForgeIndex)
    (kv : Str × ForgeEntry) : Option DerivedForgeIndex :=
  let isRec := rset.contains kv.2.version
  let entry1 := { kv.2 with recommended := some isRec }
  let idx1 := { idx with versions := mapInsert kv.1 entry1 idx.versions }
  if isRec then
    match mapLookup idx1.by_mc_version kv.2.mc_version with
    | none => none
    | some info =>
      some { idx1 with
               by_mc_version := mapInsert kv.2.mc_version
                 { info with recommended := some kv.1 } idx1.by_mc_version }
  else some idx1

/-- Run the recommendation pre-pass over every local entry. -/
def updateLocalRecommendations (rset : List Str) (idx : DerivedForgeIndex) :
    Option DerivedForgeIndex :=
  idx.versions.foldlM (updateLocalRecommendation rset) idx

/-- Post-processing of one `by_mc_version` record: `latest` is recomputed as
the last element of the discovery-ordered version list; `none` models the
`panic!` on an empty list. -/
def setLatest : Str × ForgeMCVersionInfo → Option (Str × ForgeMCVersionInfo)
  | (g, info) =>
    match info.versions.getLast? with
    | none => none
    | some lv => some (g, { info with latest := some lv })

/-- The `latest` post-processing loop over the whole index. -/
def postProcessLatest (idx : DerivedForgeIndex) : Option DerivedForgeIndex := do
  let byMc ← idx.by_mc_version.mapM setLatest
  pure { idx with by_mc_version := byMc }

/-- Flatten a maven metadata map `game version -> [long version]` into
(game version, long version) pairs. -/
def flattenMaven : List (Str × List Str) → List (Str × Str)
  | [] => []
  | (mc, lvs) :: rest => lvs.map (fun v => (mc, v)) ++ flattenMaven rest

/-- Deduplication with a seen-accumulator: membership model of collecting
into a `HashSet`. -/
def dedupPairsAux (seen : List (Str × Str)) :
    List (Str × Str) → List (Str × Str)
  | [] => []
  | p :: rest =>
    if seen.contains p then dedupPairsAux seen rest
    else p :: dedupPairsAux (p :: seen) rest

/-- `HashSet::from_iter` over (game version, long version) pairs. -/
def dedupPairs (l : List (Str × Str)) : List (Str × Str) := dedupPairsAux [] l

/-- The pending set of the forge update: all remote pairs on first run (or
when the local index was empty), otherwise the set difference
`remote \ local` (membership model of the Rust `HashSet` difference). -/
def pendingForgePairs (processAll : Bool) (remote : List (Str × List Str))
    (localMaven : Option (List (Str × List Str))) : List (Str × Str) :=
  match localMaven with
  | some localM =>
    if !processAll then
      (dedupPairs (flattenMaven remote)).filter
        (fun p => !((flattenMaven localM).contains p))
    else dedupPairs (flattenMaven remote)
  | none => dedupPairs (flattenMaven remote)

/-- Modelled from the spec: `process_results` is referenced from
`crate::utils` but its definition is absent from the provided sources; per
§4.4/§7 and the §9 note, per-item failures are captured individually and the
cycle proceeds with the items that succeeded. -/
def processResultsSpec {α : Type} (results : List (Option α)) : List α :=
  results.filterMap id

/-- The forge metadata update pipeline, from the recommended set onwards:
recommendation pre-pass on the local index, per-item parse/fetch over the
pending pairs, index construction, and `latest` post-processing.  `none`
models a `panic!` in one of the loops. -/
def forgeUpdatePipelineCore (rset : List Str)
    (localIndex : Option DerivedForgeIndex)
    (localMaven : Option (List (Str × List Str)))
    (remoteMaven : List (Str × List Str))
    (filesOracle : Str → Option (List (Str × ForgeFile))) :
    Option DerivedForgeIndex := do
  let processAll :=
    match localIndex with
    | some li => li.versions.isEmpty
    | none => false
  let idx0 := localIndex.getD ⟨[], []⟩
  let idx1 ← updateLocalRecommendations rset idx0
  let pending := pendingForgePairs processAll remoteMaven localMaven
  let results := pending.map (processForgeVersionTask rset filesOracle)
  let fvs := processResultsSpec results
  postProcessLatest (buildIndex idx1 fvs)

/-- The pipeline from the promotions document. -/
def forgeUpdatePipeline (promos : List (Str × Str))
    (localIndex : Option DerivedForgeIndex)
    (localMaven : Option (List (Str × List Str)))
    (remoteMaven : List (Str × List Str))
    (filesOracle : Str → Option (List (Str × ForgeFile))) :
    Option DerivedForgeIndex :=
  forgeUpdatePipelineCore (recommendedSet promos) localIndex localMaven
    remoteMaven filesOracle

/-!  ## Processed versions and the installer pass
(`libmcmeta/src/models/forge.rs`, `mcmeta/src/storage/forge.rs`) -/

/-- Rust `str::replacen(pat, rep, 1)` for a nonempty pattern. -/
def replaceFirst (pat rep : Str) : Str → Str
  | [] => []
  | c :: rest =>
    if pat ≠ [] ∧ pat.isPrefixOf (c :: rest) then
      rep ++ (c :: rest).drop pat.length
    else c :: replaceFirst pat rep rest

/-- `ForgeProcessedVersion`. -/
structure ForgeProcessedVersion where
  build : Int
  raw_version : Str
  mc_version : Str
  mc_version_sane : Str
  branch : Option Str
  installer_filename : Option Str
  installer_url : Option Str
  universal_filename : Option Str
  universal_url : Option Str
  changelog_url : Option Str
  long_version : Str
  deriving DecidableEq, Repr

/-- `ForgeProcessedVersion::new`: derive the long version, then scan the
files map assigning installer / universal (or client) / changelog artifacts
by classifier and extension. -/
def ForgeProcessedVersion.new (entry : ForgeEntry) : ForgeProcessedVersion :=
  let longVersion0 := entry.mc_version ++ '-' :: entry.version
  let longVersion :=
    match entry.branch with
    | some b => longVersion0 ++ '-' :: b
    | none => longVersion0
  let base : ForgeProcessedVersion :=
    { build := entry.build, raw_version := entry.version,
      mc_version := entry.mc_version,
      mc_version_sane :=
        replaceFirst (("_pre").toList) (("-pre").toList) entry.mc_version,
      branch := entry.branch, installer_filename := none,
      installer_url := none, universal_filename := none,
      universal_url := none, changelog_url := none,
      long_version := longVersion }
  match entry.files with
  | none => base
  | some files =>
    files.foldl
      (fun v cf =>
        let file := cf.2
        let filename := file.filename v.long_version
        let url := file.url v.long_version
        if cf.1 = ("installer").toList ∧ file.extension = ("jar").toList then
          { v with installer_filename := some filename,
                   installer_url := some url }
        else if (cf.1 = ("universal").toList ∨ cf.1 = ("client").toList) ∧
            (file.extension = ("jar").toList ∨
              file.extension = ("zip").toList) then
          { v with universal_filename := some filename,
                   universal_url := some url }
        else if cf.1 = ("changelog").toList ∧
            file.extension = ("txt").toList then
          { v with changelog_url := some url }
        else v)
      base

/-- `ForgeProcessedVersion::uses_installer`. -/
def ForgeProcessedVersion.usesInstaller (v : ForgeProcessedVersion) : Bool :=
  !(v.installer_url.isNone || v.mc_version == ("1.5.2").toList)

/-- `ForgeProcessedVersion::url`. -/
def ForgeProcessedVersion.url (v : ForgeProcessedVersion) : Option Str :=
  if v.usesInstaller then v.installer_url else v.universal_url

/-- `ForgeProcessedVersion::filename`. -/
def ForgeProcessedVersion.fileName (v : ForgeProcessedVersion) : Option Str :=
  if v.usesInstaller then v.installer_filename else v.universal_filename

/-- `ForgeProcessedVersion::is_supported`: a resolvable download URL and a
leading `.`-separated version component that parses as `i32` and is below
37. -/
def ForgeProcessedVersion.isSupported (v : ForgeProcessedVersion) : Bool :=
  match v.url with
  | none => false
  | some _ =>
    match parseI32 (v.raw_version.takeWhile fun c => c != '.') with
    | some major => decide (major < 37)
    | none => false

/-- `BAD_FORGE_VERSIONS` (`mcmeta/src/storage/forge.rs`). -/
def badForgeVersions : List Str := [(("1.12.2-14.23.5.2851").toList)]

/-- The candidate selection of `update_forge_installer_metadata`: every index
entry is processed except builds with no valid files URL and builds on the
deny-list. -/
def installerCandidates (idx : DerivedForgeIndex) :
    List ForgeProcessedVersion :=
  idx.versions.filterMap fun kv =>
    let version := ForgeProcessedVersion.new kv.2
    if version.url.isNone then none
    else if badForgeVersions.contains version.long_version then none
    else some version

/-- Outcome of the `install_profile.json` parse step of
`process_forge_installer`. -/
inductive ProfileParseOutcome where
  | stored
  | skippedUnsupported
  deriving DecidableEq, Repr

/-- The `install_profile.json` handling of `process_forge_installer` when no
cached manifest exists: a successful parse is stored; a failed parse is a
per-item error only for supported builds and a logged skip otherwise. -/
def handleInstallProfileParse (v : ForgeProcessedVersion) (parseOk : Bool) :
    Except Unit ProfileParseOutcome :=
  if parseOk then .ok .stored
  else if v.isSupported then .error ()
  else .ok .skippedUnsupported

/-- The content-hash change gate of `update_forge_installer_metadata`
combined with `store_index_entry`: returns whether per-build archive
extraction runs, and the stored index-entry digest after the pass. -/
def installerPassGate (hashFn : Str → Str) (indexContents : Str)
    (stored : Option Str) : Bool × Option Str :=
  let h := hashFn indexContents
  match stored with
  | some old => if old = h then (false, some old) else (true, some h)
  | none => (true, some h)

/-!  ## Per-version files manifests (`get_single_forge_files_manifest`) -/

/-- ASCII model of the regex word class `\w` (the upstream hashes are ASCII
hex strings). -/
def isWordChar (c : Char) : Bool := c.isAlphanum || c = '_'

/-- `Regex::replace_all("\\W", "")`: strip non-word characters. -/
def processHash (h : Str) : Str := h.filter isWordChar

/-- The inner loop over one classifier's `extension -> optional hash` entries:
missing hashes and hashes that do not clean up to 32 characters are skipped;
the first valid hash is inserted; a second valid hash is a hard error. -/
def classifierLoop (classifier : Str) (entries : List (Str × Option Str))
    (m : List (Str × ForgeFile)) (count : Nat) :
    Except Str (List (Str × ForgeFile)) :=
  match entries with
  | [] => .ok m
  | (_, none) :: rest => classifierLoop classifier rest m count
  | (ext, some h) :: rest =>
    let processed := processHash h
    if processed.length = 32 then
      if count = 0 then
        classifierLoop classifier rest
          (mapInsert classifier
            { classifier := classifier, hash := processed, extension := ext }
            m)
          (count + 1)
      else .error classifier
    else classifierLoop classifier rest m count

/-- A manifest entry carrying a hash that survives cleaning at the required
32 characters. -/
def validHashEntry (e : Str × Option Str) : Bool :=
  match e.2 with
  | some h => (processHash h).length == 32
  | none => false

/-- The outer loop of `get_single_forge_files_manifest` over the manifest's
`classifier -> optional (extension -> optional hash)` listing: classifiers
with no extension object are skipped; an error from the inner loop aborts the
whole construction. -/
def buildFilesMapAux (m : List (Str × ForgeFile)) :
    List (Str × Option (List (Str × Option Str))) →
    Except Str (List (Str × ForgeFile))
  | [] => .ok m
  | (_, none) :: rest => buildFilesMapAux m rest
  | (cl, some entries) :: rest =>
    match classifierLoop cl entries m 0 with
    | .error e => .error e
    | .ok m1 => buildFilesMapAux m1 rest

/-- The files-map construction of `get_single_forge_files_manifest`. -/
def buildFilesMap
    (classifiers : List (Str × Option (List (Str × Option Str)))) :
    Except Str (List (Str × ForgeFile)) :=
  buildFilesMapAux [] classifiers

/-!  ## Bounded sync scheduler (`update_mojang_metadata`,
`update_forge_metadata`): per-item outcome collection -/

/-- Classification of per-item failures (§7): transient network errors, data
errors, and fatal storage/task faults. -/
inductive SyncErrClass where
  | transient
  | dataError
  | fatal
  deriving DecidableEq, Repr

/-- Dispatch one task per pending id and collect every outcome: the fetched
and validated value is persisted into the store under the item's id; a
failure leaves the store untouched for that item and never stops the
remaining items (`buffer_unordered` + `collect`: no cross-task
cancellation). -/
def runSyncTasks {ν : Type} (oracle : Str → Except SyncErrClass ν)
    (pending : List Str) (store : List (Str × ν)) :
    List (Str × Except SyncErrClass ν) × List (Str × ν) :=
  match pending with
  | [] => ([], store)
  | id :: rest =>
    let outcome := oracle id
    let store1 :=
      match outcome with
      | .ok v => mapInsert id v store
      | .error _ => store
    let step := runSyncTasks oracle rest store1
    ((id, outcome) :: step.1, step.2)

/-- Modelled from the spec: the aggregate result assembled by
`process_results` (referenced from `crate::utils`, definition absent from the
provided sources) — the successful items together with every failure and its
classification (§4.4). -/
def aggregateResults {ν : Type}
    (outcomes : List (Str × Except SyncErrClass ν)) :
    List (Str × ν) × List (Str × SyncErrClass) :=
  match outcomes with
  | [] => ([], [])
  | (id, .ok v) :: rest =>
    let step := aggregateResults rest
    ((id, v) :: step.1, step.2)
  | (id, .error e) :: rest =>
    let step := aggregateResults rest
    (step.1, (id, e) :: step.2)

/-- Concrete five-item pending set for the C1 witness. -/
def c1Pending : List Str :=
  [(("a").toList), (("b").toList), (("c").toList), (("d").toList),
   (("e").toList)]

/-- Concrete per-item outcomes for the C1 witness: two items succeed, three
fail with distinct classifications. -/
def c1Oracle : Str → Except SyncErrClass Nat := fun id =>
  if id = ("a").toList then .ok 1
  else if id = ("c").toList then .ok 2
  else if id = ("b").toList then .error .transient
  else if id = ("d").toList then .error .dataError
  else .error .fatal

/-!  ## Mojang identity-set diff (`update_mojang_metadata`) -/

/-- One entry of the version manifest: id and last-updated time
(`time::OffsetDateTime`, modelled as an integer). -/
structure ManifestVersion where
  id : Str
  time : Int
  deriving DecidableEq, Repr

/-- A local entry that is stale: its remote counterpart (the remote lookup by
id) reports a strictly newer time. -/
def staleLocal (remote : List ManifestVersion) (l : ManifestVersion) : Bool :=
  match remote.find? (fun r => r.id == l.id) with
  | none => false
  | some r => decide (l.time < r.time)

/-- The pending set of the mojang update: with no local manifest, every
remote id (forced); otherwise the ids missing locally plus the ids whose
remote time is strictly newer than the local one (forced).  Ids present only
locally are warned about and skipped. -/
def mojangPendingIds (remote : List ManifestVersion)
    (localManifest : Option (List ManifestVersion)) : List (Str × Bool) :=
  match localManifest with
  | none => remote.map fun v => (v.id, true)
  | some localVs =>
    let diff :=
      (remote.filter fun r => !(localVs.any fun l => l.id == r.id)).map
        fun r => (r.id, false)
    let outOfDate := localVs.filterMap fun l =>
      match remote.find? (fun r => r.id == l.id) with
      | none => none
      | some r => if l.time < r.time then some (l.id, true) else none
    diff ++ outOfDate

/-- Concrete remote manifest for the C4 witness. -/
def c4Remote : List ManifestVersion :=
  [⟨(("v1").toList), 5⟩, ⟨(("v2").toList), 7⟩]

/-- Concrete local manifest for the C4 witness: `v1` is stale. -/
def c4Local : List ManifestVersion := [⟨(("v1").toList), 3⟩]

-- ===== end of definitions =====

theorem mapLookup_insert_self {α : Type} (m : List (Str × α)) (k : Str) (v : α) :
    mapLookup (mapInsert k v m) k = some v := by
  induction m with
  | nil => simp [mapInsert, mapLookup]
  | cons hd tl ih =>
    obtain ⟨k0, v0⟩ := hd
    by_cases h : k0 = k
    · simp [mapInsert, h, mapLookup]
    · simp [mapInsert, h, mapLookup, ih]

theorem mapLookup_insert_ne {α : Type} (m : List (Str × α)) (k k' : Str) (v : α)
    (h : k ≠ k') : mapLookup (mapInsert k v m) k' = mapLookup m k' := by
  induction m with
  | nil => simp [mapInsert, mapLookup, h]
  | cons hd tl ih =>
    obtain ⟨k0, v0⟩ := hd
    by_cases h0 : k0 = k
    · subst h0
      simp [mapInsert, mapLookup, h]
    · simp [mapInsert, h0, mapLookup, ih]

theorem mapInsert_keys {α : Type} (m : List (Str × α)) (k : Str) (v : α)
    (h : k ∈ mapKeys m) : mapKeys (mapInsert k v m) = mapKeys m := by
  induction m with
  | nil => simp [mapKeys] at h
  | cons hd tl ih =>
    obtain ⟨k0, v0⟩ := hd
    by_cases h0 : k0 = k
    · simp [mapInsert, h0, mapKeys]
    · have hmem : k ∈ mapKeys tl := by
        simp [mapKeys] at h
        rcases h with h | h
        · exact absurd h.symm h0
        · simpa [mapKeys] using h
      simp [mapInsert, h0, mapKeys] at ih ⊢
      exact ih hmem

theorem mapInsert_keys_new {α : Type} (m : List (Str × α)) (k : Str) (v : α)
    (h : k ∉ mapKeys m) : mapKeys (mapInsert k v m) = mapKeys m ++ [k] := by
  induction m with
  | nil => simp [mapInsert, mapKeys]
  | cons hd tl ih =>
    obtain ⟨k0, v0⟩ := hd
    simp [mapKeys] at h
    push_neg at h
    obtain ⟨h1, h2⟩ := h
    have h0 : k0 ≠ k := fun hh => h1 hh.symm
    simp [mapInsert, h0, mapKeys] at ih ⊢
    exact ih (by simpa [mapKeys] using h2)

/-- If the binding `(k, v)` is already the first binding for `k`, inserting
`(k, v)` leaves the map unchanged. -/
theorem mapInsert_lookup_eq {α : Type} (m : List (Str × α)) (k : Str) (v : α)
    (h : mapLookup m k = some v) : mapInsert k v m = m := by
  induction m with
  | nil => simp [mapLookup] at h
  | cons hd tl ih =>
    obtain ⟨k0, v0⟩ := hd
    by_cases h0 : k0 = k
    · subst h0
      simp [mapLookup] at h
      simp [mapInsert, h]
    · simp [mapLookup, h0] at h
      simp [mapInsert, h0, ih h]

theorem mem_mapKeys {α : Type} {l : List (Str × α)} {k : Str} {v : α}
    (h : (k, v) ∈ l) : k ∈ mapKeys l := by
  induction l with
  | nil => simp at h
  | cons hd tl ih =>
    obtain ⟨k0, v0⟩ := hd
    rcases List.mem_cons.mp h with h | h
    · rw [mapKeys]
      exact List.mem_cons.mpr (Or.inl (Prod.ext_iff.mp h).1)
    · rw [mapKeys]
      exact List.mem_cons.mpr (Or.inr (ih h))

theorem mapLookup_of_mem_nodup {α : Type} {l : List (Str × α)} {k : Str} {v : α}
    (hnd : (mapKeys l).Nodup) (hmem : (k, v) ∈ l) : mapLookup l k = some v := by
  induction l with
  | nil => simp at hmem
  | cons hd tl ih =>
    obtain ⟨k0, v0⟩ := hd
    rw [mapKeys] at hnd
    have hnd1 : k0 ∉ mapKeys tl := (List.nodup_cons.mp hnd).1
    have hnd2 : (mapKeys tl).Nodup := (List.nodup_cons.mp hnd).2
    rcases List.mem_cons.mp hmem with h | h
    · have hk : k = k0 := (Prod.ext_iff.mp h).1
      have hv : v = v0 := (Prod.ext_iff.mp h).2
      subst hk
      subst hv
      simp [mapLookup]
    · have hne : k0 ≠ k := fun heq => hnd1 (heq.symm ▸ mem_mapKeys h)
      simp [mapLookup, hne, ih hnd2 h]

theorem mergeMapOverwriteKey_aux {α : Type} (l : List (Str × α))
    (r : List (Str × α)) (h : ∀ kv ∈ r, mapLookup l kv.1 = some kv.2) :
    mergeMapOverwriteKey l r = l := by
  induction r with
  | nil => rfl
  | cons hd tl ih =>
    have hhd := h hd (List.mem_cons_self hd tl)
    have hstep : mapInsert hd.1 hd.2 l = l := mapInsert_lookup_eq l hd.1 hd.2 hhd
    show mergeMapOverwriteKey (mapInsert hd.1 hd.2 l) tl = l
    rw [hstep]
    exact ih fun kv hkv => h kv (List.mem_cons_of_mem hd hkv)

theorem mergeMapOverwriteKey_self {α : Type} (l : List (Str × α))
    (hnd : (mapKeys l).Nodup) : mergeMapOverwriteKey l l = l :=
  mergeMapOverwriteKey_aux l l fun kv hkv =>
    mapLookup_of_mem_nodup hnd (by simpa using hkv)

theorem mergeMapRecurse_aux {α : Type} (m : α → α → α) (l r : List (Str × α))
    (h : ∀ kv ∈ r, mapLookup l kv.1 = some kv.2)
    (hm : ∀ kv ∈ r, m kv.2 kv.2 = kv.2) : mergeMapRecurse m l r = l := by
  induction r with
  | nil => rfl
  | cons hd tl ih =>
    have hhd := h hd (List.mem_cons_self hd tl)
    have hmhd := hm hd (List.mem_cons_self hd tl)
    show mergeMapRecurse m
      (match mapLookup l hd.1 with
       | some lv => mapInsert hd.1 (m lv hd.2) l
       | none => mapInsert hd.1 hd.2 l) tl = l
    rw [hhd]
    simp only [hmhd]
    rw [mapInsert_lookup_eq l hd.1 hd.2 hhd]
    exact ih (fun kv hkv => h kv (List.mem_cons_of_mem hd hkv))
      (fun kv hkv => hm kv (List.mem_cons_of_mem hd hkv))

theorem mergeMapRecurse_self {α : Type} (m : α → α → α) (l : List (Str × α))
    (hnd : (mapKeys l).Nodup) (hm : ∀ kv ∈ l, m kv.2 kv.2 = kv.2) :
    mergeMapRecurse m l l = l :=
  mergeMapRecurse_aux m l l
    (fun kv hkv => mapLookup_of_mem_nodup hnd (by simpa using hkv)) hm

/-- C6, counterexample: the claim states `merge(x, x) == x` for every strategy
except plain append, but the `recurse` strategy — as used by the well-typed
field value `Some(MojangLibraryExtractRules { exclude: ["a"] })` of
`MojangLibrary.extract` — duplicates the nested `append` field, so merging
this value with itself is not the identity. -/
theorem c6_counterexample :
    mergeOptionRecurse mergeExtractRules extractRulesInput extractRulesInput ≠
      extractRulesInput := by
  decide

/-- C6, amended: merging a well-typed value with itself is the identity for the
`overwrite`, `overwrite-if-present` (both variants) and `overwrite-keyed`
strategies unconditionally (maps carry duplicate-free keys, as Rust's
`HashMap` guarantees); for the `recurse` strategies it is the identity exactly
when the recursively invoked inner merge is itself idempotent on the value —
recursion that reaches an `append`-strategy field duplicates, like plain
`append` itself. -/
theorem c6_merge_idempotence :
    (∀ (α : Type) (x : α), mergeOverwrite x x = x) ∧
    (∀ (α : Type) (x : Option α), mergeOverwriteSome x x = x) ∧
    (∀ (α : Type) (x : Option α), mergeOverwriteNone x x = x) ∧
    (∀ (α : Type) (l : List (Str × α)), (mapKeys l).Nodup →
      mergeMapOverwriteKey l l = l) ∧
    (∀ (α : Type) (x : Option (List (Str × α))),
      (∀ lv, x = some lv → (mapKeys lv).Nodup) →
      mergeOptionMapOverwriteKeySome x x = x) ∧
    (∀ (α : Type) (m : α → α → α) (x : Option α),
      (∀ v, x = some v → m v v = v) → mergeOptionRecurse m x x = x) ∧
    (∀ (α : Type) (m : α → α → α) (l : List (Str × α)), (mapKeys l).Nodup →
      (∀ kv ∈ l, m kv.2 kv.2 = kv.2) → mergeMapRecurse m l l = l) ∧
    (∀ (α : Type) (m : α → α → α) (x : Option (List (Str × α))),
      (∀ lv, x = some lv →
        (mapKeys lv).Nodup ∧ ∀ kv ∈ lv, m kv.2 kv.2 = kv.2) →
      mergeOptionMapRecurseSome m x x = x) := by
  refine ⟨fun α x => rfl, fun α x => ?_, fun α x => ?_, ?_, ?_, ?_, ?_, ?_⟩
  · cases x <;> rfl
  · cases x <;> rfl
  · exact fun α l h => mergeMapOverwriteKey_self l h
  · intro α x h
    cases x with
    | none => rfl
    | some lv =>
      show some (mergeMapOverwriteKey lv lv) = some lv
      rw [mergeMapOverwriteKey_self lv (h lv rfl)]
  · intro α m x h
    cases x with
    | none => rfl
    | some v =>
      show some (m v v) = some v
      rw [h v rfl]
  · exact fun α m l hnd hm => mergeMapRecurse_self m l hnd hm
  · intro α m x h
    cases x with
    | none => rfl
    | some lv =>
      show some (mergeMapRecurse m lv lv) = some lv
      rw [mergeMapRecurse_self m lv (h lv rfl).1 (h lv rfl).2]

/-- Witness for C6: the amended theorem applied at concrete inputs — an
`overwrite-keyed` map with duplicate-free keys, and a `recurse` option whose
inner merge (`overwrite`) is idempotent. -/
theorem c6_merge_idempotence_witness :
    mergeMapOverwriteKey [((("k").toList), (1 : Nat))]
        [((("k").toList), (1 : Nat))] = [((("k").toList), (1 : Nat))] ∧
    mergeOptionRecurse (fun a b => mergeOverwrite a b) (some (3 : Nat))
        (some (3 : Nat)) = some (3 : Nat) :=
  ⟨c6_merge_idempotence.2.2.2.1 Nat [((("k").toList), (1 : Nat))] (by decide),
   c6_merge_idempotence.2.2.2.2.2.1 Nat (fun a b => mergeOverwrite a b)
     (some 3) (fun v hv => rfl)⟩

theorem splitChar_ne_nil (c : Char) (s : Str) : splitChar c s ≠ [] := by
  induction s with
  | nil => simp [splitChar]
  | cons a rest ih =>
    rw [splitChar]
    rcases hsp : splitChar c rest with _ | ⟨h, t⟩
    · exact absurd hsp ih
    · dsimp
      split <;> simp

theorem splitChar_pieces_not_mem (c : Char) (s : Str) :
    ∀ p ∈ splitChar c s, c ∉ p := by
  induction s with
  | nil =>
    intro p hp
    simp [splitChar] at hp
    simp [hp]
  | cons a rest ih =>
    intro p hp
    rw [splitChar] at hp
    rcases hsp : splitChar c rest with _ | ⟨h, t⟩
    · exact absurd hsp (splitChar_ne_nil c rest)
    · rw [hsp] at hp
      dsimp at hp
      by_cases hac : a = c
      · rw [if_pos hac] at hp
        rcases List.mem_cons.mp hp with hp | hp
        · simp [hp]
        · exact ih p (hsp ▸ hp)
      · rw [if_neg hac] at hp
        rcases List.mem_cons.mp hp with hp | hp
        · subst hp
          intro hmem
          rcases List.mem_cons.mp hmem with hmem | hmem
          · exact hac hmem.symm
          · exact ih h (hsp ▸ List.mem_cons_self h t) hmem
        · exact ih p (hsp ▸ List.mem_cons_of_mem h hp)

theorem splitChar_pieces_subset (c : Char) (s : Str) :
    ∀ p ∈ splitChar c s, ∀ x ∈ p, x ∈ s := by
  induction s with
  | nil =>
    intro p hp
    simp [splitChar] at hp
    simp [hp]
  | cons a rest ih =>
    intro p hp x hx
    rw [splitChar] at hp
    rcases hsp : splitChar c rest with _ | ⟨h, t⟩
    · exact absurd hsp (splitChar_ne_nil c rest)
    · rw [hsp] at hp
      dsimp at hp
      by_cases hac : a = c
      · rw [if_pos hac] at hp
        rcases List.mem_cons.mp hp with hp | hp
        · subst hp
          simp at hx
        · exact List.mem_cons_of_mem a (ih p (hsp ▸ hp) x hx)
      · rw [if_neg hac] at hp
        rcases List.mem_cons.mp hp with hp | hp
        · subst hp
          rcases List.mem_cons.mp hx with hx | hx
          · exact List.mem_cons.mpr (Or.inl hx)
          · exact List.mem_cons_of_mem a
              (ih h (hsp ▸ List.mem_cons_self h t) x hx)
        · exact List.mem_cons_of_mem a
            (ih p (hsp ▸ List.mem_cons_of_mem h hp) x hx)

theorem splitChar_eq_single (c : Char) (s : Str) (h : c ∉ s) :
    splitChar c s = [s] := by
  induction s with
  | nil => rfl
  | cons a rest ih =>
    have hac : a ≠ c := fun hh => h (hh ▸ List.mem_cons_self a rest)
    have hrest : c ∉ rest := fun hh => h (List.mem_cons_of_mem a hh)
    rw [splitChar, ih hrest]
    simp [hac]

theorem splitChar_append_cons (c : Char) (x y : Str) (hx : c ∉ x) :
    splitChar c (x ++ c :: y) = x :: splitChar c y := by
  induction x with
  | nil =>
    rw [List.nil_append, splitChar]
    rcases hsp : splitChar c y with _ | ⟨h, t⟩
    · exact absurd hsp (splitChar_ne_nil c y)
    · simp
  | cons a x' ih =>
    have hac : a ≠ c := fun hh => hx (hh ▸ List.mem_cons_self a x')
    have hx' : c ∉ x' := fun hh => hx (List.mem_cons_of_mem a hh)
    rw [List.cons_append, splitChar, ih hx']
    simp [hac]

theorem not_mem_sep_append {a : Char} {sep : Char} {x y : Str}
    (hx : a ∉ x) (hsep : a ≠ sep) (hy : a ∉ y) : a ∉ x ++ sep :: y := by
  intro hmem
  rcases List.mem_append.mp hmem with h | h
  · exact hx h
  · rcases List.mem_cons.mp h with h | h
    · exact hsep h
    · exact hy h

/-- Printing a specifier whose components are free of `:` and `@` and whose
extension is free of `@` re-parses to the same specifier. -/
theorem fromStr_display_of_clean (g0 g1 g2 : Str) (g3? : Option Str) (e : Str)
    (h0c : (':' : Char) ∉ g0) (h0a : ('@' : Char) ∉ g0)
    (h1c : (':' : Char) ∉ g1) (h1a : ('@' : Char) ∉ g1)
    (h2c : (':' : Char) ∉ g2) (h2a : ('@' : Char) ∉ g2)
    (h3 : ∀ g3, g3? = some g3 → (':' : Char) ∉ g3 ∧ ('@' : Char) ∉ g3)
    (hea : ('@' : Char) ∉ e) :
    GradleSpecifier.fromStr
      (GradleSpecifier.display ⟨g0, g1, g2, some e, g3?⟩) =
      some ⟨g0, g1, g2, some e, g3?⟩ := by
  cases g3? with
  | none =>
    have hbasea : ('@' : Char) ∉ g0 ++ ':' :: (g1 ++ ':' :: g2) :=
      not_mem_sep_append h0a (by decide)
        (not_mem_sep_append h1a (by decide) h2a)
    have hcomp : splitChar ':' (g0 ++ ':' :: (g1 ++ ':' :: g2)) =
        [g0, g1, g2] := by
      rw [splitChar_append_cons ':' g0 _ h0c,
        splitChar_append_cons ':' g1 _ h1c, splitChar_eq_single ':' g2 h2c]
    by_cases hje : e = jarExt
    · subst hje
      have hdisp : GradleSpecifier.display ⟨g0, g1, g2, some jarExt, none⟩ =
          g0 ++ ':' :: (g1 ++ ':' :: g2) := by
        simp [GradleSpecifier.display]
      rw [hdisp]
      simp [GradleSpecifier.fromStr, splitChar_eq_single '@' _ hbasea, hcomp,
        List.get?]
    · have hdisp : GradleSpecifier.display ⟨g0, g1, g2, some e, none⟩ =
          (g0 ++ ':' :: (g1 ++ ':' :: g2)) ++ '@' :: e := by
        simp [GradleSpecifier.display, hje, List.append_assoc]
      rw [hdisp, GradleSpecifier.fromStr]
      rw [splitChar_append_cons '@' _ e hbasea, splitChar_eq_single '@' e hea]
      simp [hcomp, List.get?, List.getD]
  | some g3 =>
    have h3c : (':' : Char) ∉ g3 := (h3 g3 rfl).1
    have h3a : ('@' : Char) ∉ g3 := (h3 g3 rfl).2
    have hbasea :
        ('@' : Char) ∉ g0 ++ ':' :: (g1 ++ ':' :: (g2 ++ ':' :: g3)) :=
      not_mem_sep_append h0a (by decide)
        (not_mem_sep_append h1a (by decide)
          (not_mem_sep_append h2a (by decide) h3a))
    have hcomp : splitChar ':' (g0 ++ ':' :: (g1 ++ ':' :: (g2 ++ ':' :: g3)))
        = [g0, g1, g2, g3] := by
      rw [splitChar_append_cons ':' g0 _ h0c,
        splitChar_append_cons ':' g1 _ h1c,
        splitChar_append_cons ':' g2 _ h2c, splitChar_eq_single ':' g3 h3c]
    by_cases hje : e = jarExt
    · subst hje
      have hdisp : GradleSpecifier.display ⟨g0, g1, g2, some jarExt, some g3⟩ =
          g0 ++ ':' :: (g1 ++ ':' :: (g2 ++ ':' :: g3)) := by
        simp [GradleSpecifier.display]
      rw [hdisp]
      simp [GradleSpecifier.fromStr, splitChar_eq_single '@' _ hbasea, hcomp,
        List.get?]
    · have hdisp : GradleSpecifier.display ⟨g0, g1, g2, some e, some g3⟩ =
          (g0 ++ ':' :: (g1 ++ ':' :: (g2 ++ ':' :: g3))) ++ '@' :: e := by
        simp [GradleSpecifier.display, hje, List.append_assoc]
      rw [hdisp, GradleSpecifier.fromStr]
      rw [splitChar_append_cons '@' _ e hbasea, splitChar_eq_single '@' e hea]
      simp [hcomp, List.get?, List.getD]

/-- C10: Gradle-specifier parsing and printing round-trip — every string that
parses into a `GradleSpecifier` prints to a form that re-parses to the same
specifier, with the extension defaulting to `jar` on parse and `jar` omitted
again on print. -/
theorem c10_gradle_roundtrip (s : Str) (g : GradleSpecifier)
    (h : GradleSpecifier.fromStr s = some g) :
    GradleSpecifier.fromStr (GradleSpecifier.display g) = some g := by
  obtain ⟨grp, art, ver, ext?, cls?⟩ := g
  simp only [GradleSpecifier.fromStr] at h
  rcases hat : splitChar '@' s with _ | ⟨first, rest⟩
  · rw [hat] at h
    exact absurd h (by simp)
  rw [hat] at h
  dsimp only at h
  rcases h0 : (splitChar ':' first).get? 0 with _ | g0
  · rw [h0] at h
    exact absurd h (by simp)
  rcases h1 : (splitChar ':' first).get? 1 with _ | g1
  · rw [h0, h1] at h
    exact absurd h (by simp)
  rcases h2 : (splitChar ':' first).get? 2 with _ | g2
  · rw [h0, h1, h2] at h
    exact absurd h (by simp)
  rw [h0, h1, h2] at h
  simp only [Option.some.injEq, GradleSpecifier.mk.injEq] at h
  obtain ⟨hgrp, hart, hver, hext, hcls⟩ := h
  subst hgrp
  subst hart
  subst hver
  subst hext
  subst hcls
  have hfirsta : ('@' : Char) ∉ first :=
    splitChar_pieces_not_mem '@' s first (hat ▸ List.mem_cons_self first rest)
  have hsub := splitChar_pieces_subset ':' first
  have hnc := splitChar_pieces_not_mem ':' first
  have hg0 := List.get?_mem h0
  have hg1 := List.get?_mem h1
  have hg2 := List.get?_mem h2
  refine fromStr_display_of_clean g0 g1 g2 _ _ (hnc g0 hg0)
    (fun hx => hfirsta (hsub g0 hg0 '@' hx)) (hnc g1 hg1)
    (fun hx => hfirsta (hsub g1 hg1 '@' hx)) (hnc g2 hg2)
    (fun hx => hfirsta (hsub g2 hg2 '@' hx)) ?_ ?_
  · intro g3 hg3
    by_cases hlen4 : (splitChar ':' first).length = 4
    · rw [if_pos hlen4] at hg3
      have hmem3 := List.get?_mem hg3
      exact ⟨hnc g3 hmem3, fun hx => hfirsta (hsub g3 hmem3 '@' hx)⟩
    · rw [if_neg hlen4] at hg3
      exact absurd hg3 (by simp)
  · by_cases hlen2 : (first :: rest).length = 2
    · rw [if_pos hlen2]
      rcases rest with _ | ⟨e, rest'⟩
      · simp at hlen2
      · rcases rest' with _ | ⟨x, y⟩
        · have hemem : e ∈ splitChar '@' s := by
            rw [hat]
            exact List.mem_cons_of_mem first (List.mem_cons_self e [])
          simpa [List.getD] using splitChar_pieces_not_mem '@' s e hemem
        · simp at hlen2
    · rw [if_neg hlen2]
      decide

/-- Witness for C10: the round-trip theorem applied to the concrete string
`net.minecraftforge:forge:1.19-41.0.1:installer@zip`. -/
theorem c10_gradle_roundtrip_witness :
    GradleSpecifier.fromStr
        (("net.minecraftforge:forge:1.19-41.0.1:installer@zip").toList) =
      some sampleSpecifier ∧
    GradleSpecifier.fromStr (GradleSpecifier.display sampleSpecifier) =
      some sampleSpecifier :=
  ⟨by decide,
   c10_gradle_roundtrip
     (("net.minecraftforge:forge:1.19-41.0.1:installer@zip").toList)
     sampleSpecifier (by decide)⟩

/-!  ## C8: content-hash change gate -/

/-- C8: the installer-metadata pass skips archive extraction exactly when the
stored digest equals the hash of the current serialized index, always
regenerates when no digest is stored, and a second run over byte-identical
index data never extracts again — so extraction runs exactly once across two
runs that start without a matching digest. -/
theorem c8_change_gate (hashFn : Str → Str) (contents : Str)
    (stored : Option Str) :
    ((installerPassGate hashFn contents stored).1 = false ↔
      stored = some (hashFn contents)) ∧
    (installerPassGate hashFn contents none).1 = true ∧
    (installerPassGate hashFn contents
        (installerPassGate hashFn contents stored).2).1 = false := by
  refine ⟨?_, by simp [installerPassGate], ?_⟩
  · cases stored with
    | none => simp [installerPassGate]
    | some old =>
      by_cases h : old = hashFn contents <;> simp [installerPassGate, h]
  · cases stored with
    | none => simp [installerPassGate]
    | some old =>
      by_cases h : old = hashFn contents <;> simp [installerPassGate, h]

/-!  ## C9: unsupported builds and install-profile parse failures -/

/-- C9: when `install_profile.json` parses under no schema variant, the
per-item result is an error exactly when the build is supported; for an
unsupported build the failure is a logged skip; a successful parse is always
stored; and "supported" means having a resolvable download URL together with
a leading numeric version component that parses as `i32` and is below the
fixed threshold 37. -/
theorem c9_unsupported_profile_skip (v : ForgeProcessedVersion) :
    (handleInstallProfileParse v false = .error () ↔ v.isSupported = true) ∧
    (handleInstallProfileParse v false = .ok .skippedUnsupported ↔
      v.isSupported = false) ∧
    handleInstallProfileParse v true = .ok .stored ∧
    (v.isSupported = true ↔ v.url.isSome = true ∧
      ∃ major, parseI32 (v.raw_version.takeWhile fun c => c != '.') =
          some major ∧ major < 37) := by
  refine ⟨?_, ?_, rfl, ?_⟩
  · by_cases h : v.isSupported <;> simp [handleInstallProfileParse, h]
  · by_cases h : v.isSupported <;> simp [handleInstallProfileParse, h]
  · unfold ForgeProcessedVersion.isSupported
    cases hurl : v.url with
    | none => simp
    | some u =>
      cases hp : parseI32 (v.raw_version.takeWhile fun c => c != '.') with
      | none => simp
      | some major =>
        by_cases hlt : major < 37 <;> simp [hlt]

/-!  ## C2: the deny-list and the derived index -/

/-- C2, counterexample: with the deny-listed long version
`1.12.2-14.23.5.2851` present in the raw upstream coordinate listing, the
metadata-update pipeline produces a derived index whose `versions` map does
contain that long version as a key — the deny-list is not applied before
index construction. -/
theorem c2_counterexample :
    badForgeVersions.contains (("1.12.2-14.23.5.2851").toList) = true ∧
    ((forgeUpdatePipeline [] none none
          [((("1.12.2").toList), [(("1.12.2-14.23.5.2851").toList)])]
          (fun _ => some [])).map
        fun idx =>
          (mapLookup idx.versions (("1.12.2-14.23.5.2851").toList)).isSome) =
      some true := by
  constructor
  · decide
  · decide

/-- C2, amended: the deny-list is applied in the installer-metadata pass
instead — a build whose long version is on `BAD_FORGE_VERSIONS` (and likewise
a build with no resolvable files URL) is never selected for installer
processing, though it may appear in the derived index's `versions` map. -/
theorem c2_denylist_amended (idx : DerivedForgeIndex)
    (v : ForgeProcessedVersion) (h : v ∈ installerCandidates idx) :
    badForgeVersions.contains v.long_version = false ∧
    v.url.isSome = true := by
  rcases List.mem_filterMap.mp h with ⟨kv, _, hf⟩
  dsimp only at hf
  by_cases h1 : (ForgeProcessedVersion.new kv.2).url.isNone = true
  · rw [if_pos h1] at hf
    exact absurd hf (by simp)
  · rw [if_neg h1] at hf
    by_cases h2 :
        badForgeVersions.contains (ForgeProcessedVersion.new kv.2).long_version
          = true
    · rw [if_pos h2] at hf
      exact absurd hf (by simp)
    · rw [if_neg h2] at hf
      obtain rfl := Option.some.inj hf
      refine ⟨Bool.not_eq_true _ ▸ h2, ?_⟩
      cases hu : (ForgeProcessedVersion.new kv.2).url with
      | none => exact absurd (by simp [hu]) h1
      | some u => simp

/-- A concrete well-formed index entry (used by the C2 witness). -/
def sampleForgeEntry : ForgeEntry :=
  { long_version := ("1.20.1-47.2.0").toList,
    mc_version := ("1.20.1").toList, version := ("47.2.0").toList,
    build := 0, branch := none, latest := none, recommended := some false,
    files := some [((("installer").toList),
      { classifier := ("installer").toList,
        hash := ("00000000000000000000000000000000").toList,
        extension := ("jar").toList })] }

/-- Witness for C2's amended theorem: the candidate produced from a concrete
one-entry index is not deny-listed and has a resolvable URL. -/
theorem c2_denylist_amended_witness :
    badForgeVersions.contains
        (ForgeProcessedVersion.new sampleForgeEntry).long_version = false ∧
    (ForgeProcessedVersion.new sampleForgeEntry).url.isSome = true :=
  c2_denylist_amended
    ⟨[((("1.20.1-47.2.0").toList), sampleForgeEntry)], []⟩
    (ForgeProcessedVersion.new sampleForgeEntry) (by decide)

/-!  ## C5: branch-scoped and malformed promotion keys -/

/-- C5: a promotion key whose parse captures a trailing branch segment never
contributes its short version to the recommended set, a key the grammar does
not parse is skipped, and in either case removing the entry leaves the
recommended set — and therefore the whole derived index of the update
pipeline — unchanged, while the surrounding entries are still processed. -/
theorem c5_branch_promotions_excluded (k sv : Str)
    (pre post : List (Str × Str))
    (h : (∃ m, findPromoMatch k = some m ∧ m.branch.isSome = true) ∨
      findPromoMatch k = none) :
    promoContrib (k, sv) = none ∧
    recommendedSet (pre ++ (k, sv) :: post) = recommendedSet (pre ++ post) ∧
    ∀ localIndex localMaven remoteMaven filesOracle,
      forgeUpdatePipeline (pre ++ (k, sv) :: post) localIndex localMaven
          remoteMaven filesOracle =
        forgeUpdatePipeline (pre ++ post) localIndex localMaven remoteMaven
          filesOracle := by
  have hc : promoContrib (k, sv) = none := by
    unfold promoContrib
    rcases h with ⟨m, hm, hb⟩ | hnone
    · rw [hm]
      dsimp only
      rw [if_pos hb]
    · rw [hnone]
  have hset : recommendedSet (pre ++ (k, sv) :: post) =
      recommendedSet (pre ++ post) := by
    unfold recommendedSet
    rw [List.filterMap_append, List.filterMap_append, List.filterMap_cons, hc]
  refine ⟨hc, hset, fun li lm rm fo => ?_⟩
  unfold forgeUpdatePipeline
  rw [hset]

/-- Witness for C5: the branch-scoped key `1.20-recommended-forge` contributes
nothing to the recommended set. -/
theorem c5_branch_promotions_excluded_witness :
    promoContrib ((("1.20-recommended-forge").toList), (("46.0.1").toList)) =
      none :=
  (c5_branch_promotions_excluded (("1.20-recommended-forge").toList)
    (("46.0.1").toList) [] []
    (Or.inl ⟨⟨(("1.20").toList), (("recommended").toList),
      some (("forge").toList)⟩, by decide, by decide⟩)).1

/-!  ## C3: `latest` is recomputed from discovery order -/

theorem mapM_setLatest_spec :
    ∀ (l l' : List (Str × ForgeMCVersionInfo)), l.mapM setLatest = some l' →
      ∀ g info, mapLookup l' g = some info →
        ∃ last, info.versions.getLast? = some last ∧
          info.latest = some last := by
  intro l
  induction l with
  | nil =>
    intro l' h g info hl
    rw [List.mapM_nil] at h
    obtain rfl : ([] : List (Str × ForgeMCVersionInfo)) = l' := by
      simpa using h
    simp [mapLookup] at hl
  | cons p rest ih =>
    intro l' h g info hl
    rw [List.mapM_cons] at h
    simp only [Option.pure_def, Option.bind_eq_bind, Option.bind_eq_some] at h
    rcases h with ⟨b, hb, bs, hbs, hcons⟩
    obtain rfl : b :: bs = l' := by simpa using hcons
    obtain ⟨g0, info0⟩ := p
    unfold setLatest at hb
    dsimp only at hb
    rcases hlast : info0.versions.getLast? with _ | lv
    · rw [hlast] at hb
      exact absurd hb (by simp)
    · rw [hlast] at hb
      obtain rfl := Option.some.inj hb
      rw [mapLookup] at hl
      by_cases hg : g0 = g
      · rw [if_pos hg] at hl
        obtain rfl := Option.some.inj hl
        exact ⟨lv, hlast, rfl⟩
      · rw [if_neg hg] at hl
        exact ih bs hbs g info hl

theorem postProcessLatest_spec (idx idx' : DerivedForgeIndex)
    (h : postProcessLatest idx = some idx') :
    ∀ g info, mapLookup idx'.by_mc_version g = some info →
      ∃ last, info.versions.getLast? = some last ∧
        info.latest = some last := by
  unfold postProcessLatest at h
  simp only [Option.pure_def, Option.bind_eq_bind, Option.bind_eq_some] at h
  rcases h with ⟨byMc, hm, hidx⟩
  intro g info hl
  obtain rfl := Option.some.inj hidx
  exact mapM_setLatest_spec idx.by_mc_version byMc hm g info hl

theorem recommendedSet_filter_latest (promos : List (Str × Str)) :
    recommendedSet (promos.filter fun p => !(isLatestPromoKey p.1)) =
      recommendedSet promos := by
  induction promos with
  | nil => rfl
  | cons p rest ih =>
    by_cases hl : isLatestPromoKey p.1 = true
    · have hc : promoContrib p = none := by
        unfold promoContrib
        unfold isLatestPromoKey at hl
        rcases hm : findPromoMatch p.1 with _ | m
        · rfl
        · rw [hm] at hl
          dsimp only at hl ⊢
          by_cases hb : m.branch.isSome = true
          · rw [if_pos hb]
          · rw [if_neg hb, if_neg]
            intro hrec
            rw [hrec] at hl
            exact absurd hl (by decide)
      rw [List.filter_cons, if_neg (by simp [hl])]
      unfold recommendedSet at ih ⊢
      rw [List.filterMap_cons, hc, ih]
    · rw [List.filter_cons, if_pos (by simp [hl])]
      unfold recommendedSet at ih ⊢
      rw [List.filterMap_cons, List.filterMap_cons]
      cases promoContrib p
      · exact ih
      · rw [ih]

/-- C3: whenever the update pipeline completes, every game version of the
derived index carries `latest` equal to the last element of its
discovery-ordered version list, and the result is insensitive to the
upstream promotions' `latest` entries (dropping every `latest`-designating
key yields the same index). -/
theorem c3_latest_recomputed :
    (∀ promos localIndex localMaven remoteMaven filesOracle idx,
        forgeUpdatePipeline promos localIndex localMaven remoteMaven
            filesOracle = some idx →
        ∀ g info, mapLookup idx.by_mc_version g = some info →
          ∃ last, info.versions.getLast? = some last ∧
            info.latest = some last) ∧
    (∀ promos localIndex localMaven remoteMaven filesOracle,
        forgeUpdatePipeline promos localIndex localMaven remoteMaven
            filesOracle =
          forgeUpdatePipeline
            (promos.filter fun p => !(isLatestPromoKey p.1))
            localIndex localMaven remoteMaven filesOracle) := by
  constructor
  · intro promos li lm rm fo idx h g info hl
    unfold forgeUpdatePipeline forgeUpdatePipelineCore at h
    simp only [Option.bind_eq_bind, Option.bind_eq_some] at h
    rcases h with ⟨idx1, _, h2⟩
    exact postProcessLatest_spec _ _ h2 g info hl
  · intro promos li lm rm fo
    unfold forgeUpdatePipeline
    rw [recommendedSet_filter_latest]

/-- The concrete derived index produced by the C3 witness run. -/
def c3WitnessIndex : DerivedForgeIndex :=
  { versions := [((("1.12.2-14.23.5.2851").toList),
      { long_version := ("1.12.2-14.23.5.2851").toList,
        mc_version := ("1.12.2").toList,
        version := ("14.23.5.2851").toList, build := 2851, branch := none,
        latest := none, recommended := some false, files := some [] })],
    by_mc_version := [((("1.12.2").toList),
      { latest := some (("1.12.2-14.23.5.2851").toList), recommended := none,
        versions := [(("1.12.2-14.23.5.2851").toList)] })] }

/-- Witness for C3: the theorem applied to a concrete pipeline run with one
discovered build. -/
theorem c3_latest_recomputed_witness :
    ∃ last,
      (ForgeMCVersionInfo.mk (some (("1.12.2-14.23.5.2851").toList)) none
          [(("1.12.2-14.23.5.2851").toList)]).versions.getLast? = some last ∧
      (ForgeMCVersionInfo.mk (some (("1.12.2-14.23.5.2851").toList)) none
          [(("1.12.2-14.23.5.2851").toList)]).latest = some last :=
  c3_latest_recomputed.1 [] none none
    [((("1.12.2").toList), [(("1.12.2-14.23.5.2851").toList)])]
    (fun _ => some []) c3WitnessIndex (by decide) (("1.12.2").toList)
    (ForgeMCVersionInfo.mk (some (("1.12.2-14.23.5.2851").toList)) none
      [(("1.12.2-14.23.5.2851").toList)]) (by decide)

/-!  ## C7: at most one `ForgeFile` per classifier -/

theorem mapInsert_keys_nodup {α : Type} (m : List (Str × α)) (k : Str) (v : α)
    (h : (mapKeys m).Nodup) : (mapKeys (mapInsert k v m)).Nodup := by
  by_cases hk : k ∈ mapKeys m
  · rw [mapInsert_keys m k v hk]
    exact h
  · rw [mapInsert_keys_new m k v hk]
    refine h.append (List.nodup_singleton k) ?_
    intro a ha hb
    simp at hb
    subst hb
    exact hk ha

theorem classifierLoop_ok_nodup (cl : Str) :
    ∀ (entries : List (Str × Option Str)) (m : List (Str × ForgeFile))
      (count : Nat) (m' : List (Str × ForgeFile)),
      (mapKeys m).Nodup → classifierLoop cl entries m count = .ok m' →
      (mapKeys m').Nodup := by
  intro entries
  induction entries with
  | nil =>
    intro m count m' hnd h
    rw [classifierLoop] at h
    obtain rfl := Except.ok.inj h
    exact hnd
  | cons e rest ih =>
    intro m count m' hnd h
    obtain ⟨ext, hOpt⟩ := e
    cases hOpt with
    | none =>
      rw [classifierLoop] at h
      exact ih m count m' hnd h
    | some hsh =>
      rw [classifierLoop] at h
      by_cases h32 : (processHash hsh).length = 32
      · rw [if_pos h32] at h
        by_cases hcnt : count = 0
        · rw [if_pos hcnt] at h
          exact ih _ _ m' (mapInsert_keys_nodup m cl _ hnd) h
        · rw [if_neg hcnt] at h
          exact absurd h (by simp)
      · rw [if_neg h32] at h
        exact ih m count m' hnd h

theorem buildFilesMapAux_ok_nodup :
    ∀ (cs : List (Str × Option (List (Str × Option Str))))
      (m m' : List (Str × ForgeFile)),
      (mapKeys m).Nodup → buildFilesMapAux m cs = .ok m' →
      (mapKeys m').Nodup := by
  intro cs
  induction cs with
  | nil =>
    intro m m' hnd h
    rw [buildFilesMapAux] at h
    obtain rfl := Except.ok.inj h
    exact hnd
  | cons c rest ih =>
    intro m m' hnd h
    obtain ⟨cl, eOpt⟩ := c
    cases eOpt with
    | none =>
      rw [buildFilesMapAux] at h
      exact ih m m' hnd h
    | some entries =>
      rw [buildFilesMapAux] at h
      rcases hloop : classifierLoop cl entries m 0 with e | m1
      · rw [hloop] at h
        exact absurd h (by simp)
      · rw [hloop] at h
        dsimp only at h
        exact ih m1 m' (classifierLoop_ok_nodup cl entries m 0 m1 hnd hloop) h

theorem classifierLoop_second_valid_err (cl : Str) :
    ∀ (entries : List (Str × Option Str)) (m : List (Str × ForgeFile))
      (count : Nat),
      (count ≠ 0 ∧ 1 ≤ entries.countP validHashEntry) ∨
        2 ≤ entries.countP validHashEntry →
      ∃ e, classifierLoop cl entries m count = .error e := by
  intro entries
  induction entries with
  | nil =>
    intro m count h
    rcases h with ⟨_, h1⟩ | h2
    · simp [List.countP_nil] at h1
    · simp [List.countP_nil] at h2
  | cons e rest ih =>
    intro m count h
    obtain ⟨ext, hOpt⟩ := e
    have hcntc := List.countP_cons validHashEntry (ext, hOpt) rest
    cases hOpt with
    | none =>
      rw [classifierLoop]
      refine ih m count ?_
      have hv : validHashEntry (ext, none) = false := rfl
      rw [hcntc, hv] at h
      simpa using h
    | some hsh =>
      rw [classifierLoop]
      by_cases h32 : (processHash hsh).length = 32
      · rw [if_pos h32]
        have hv : validHashEntry (ext, some hsh) = true := by
          simp [validHashEntry, h32]
        by_cases hcnt : count = 0
        · subst hcnt
          rw [if_pos rfl]
          refine ih _ 1 (Or.inl ⟨one_ne_zero, ?_⟩)
          rcases h with ⟨hc0, _⟩ | h2
          · exact absurd rfl hc0
          · rw [hcntc, hv, if_pos rfl] at h2
            omega
        · rw [if_neg hcnt]
          exact ⟨cl, rfl⟩
      · rw [if_neg h32]
        have hv : validHashEntry (ext, some hsh) = false := by
          simp [validHashEntry, h32]
        refine ih m count ?_
        rw [hcntc, hv] at h
        simpa using h

theorem buildFilesMapAux_denylist_err (cl : Str)
    (entries : List (Str × Option Str))
    (hcnt : 2 ≤ entries.countP validHashEntry) :
    ∀ (pre post : List (Str × Option (List (Str × Option Str))))
      (m : List (Str × ForgeFile)),
      ∃ e, buildFilesMapAux m (pre ++ (cl, some entries) :: post) =
        .error e := by
  intro pre
  induction pre with
  | nil =>
    intro post m
    rw [List.nil_append, buildFilesMapAux]
    obtain ⟨e, he⟩ :=
      classifierLoop_second_valid_err cl entries m 0 (Or.inr hcnt)
    rw [he]
    exact ⟨e, rfl⟩
  | cons c pre' ih =>
    intro post m
    obtain ⟨cl0, eOpt⟩ := c
    cases eOpt with
    | none =>
      rw [List.cons_append, buildFilesMapAux]
      exact ih post m
    | some entries0 =>
      rw [List.cons_append, buildFilesMapAux]
      rcases hloop : classifierLoop cl0 entries0 m 0 with e | m1
      · exact ⟨e, rfl⟩
      · exact ih post m1

/-- C7: a successfully produced files map has duplicate-free classifier keys
(at most one `ForgeFile` per classifier), and a classifier listing carrying
two (or more) entries with valid 32-character cleaned hashes makes the whole
manifest processing return an error instead of overwriting. -/
theorem c7_files_map_unique_classifier :
    (∀ classifiers m, buildFilesMap classifiers = .ok m →
      (mapKeys m).Nodup) ∧
    (∀ classifiers cl entries, (cl, some entries) ∈ classifiers →
      2 ≤ entries.countP validHashEntry →
      ∃ err, buildFilesMap classifiers = .error err) := by
  constructor
  · intro classifiers m h
    exact buildFilesMapAux_ok_nodup classifiers [] m (by simp [mapKeys]) h
  · intro classifiers cl entries hmem hcnt
    obtain ⟨pre, post, rfl⟩ := List.append_of_mem hmem
    exact buildFilesMapAux_denylist_err cl entries hcnt pre post []

/-- Witness for C7: a concrete classifier listing with two valid hashes for
`installer` is rejected. -/
theorem c7_files_map_unique_classifier_witness :
    ∃ err,
      buildFilesMap [((("installer").toList),
        some [((("jar").toList),
                some (("00000000000000000000000000000000").toList)),
              ((("zip").toList),
                some (("11111111111111111111111111111111").toList))])] =
        .error err :=
  c7_files_map_unique_classifier.2 _ (("installer").toList)
    [((("jar").toList), some (("00000000000000000000000000000000").toList)),
     ((("zip").toList), some (("11111111111111111111111111111111").toList))]
    (by decide) (by decide)

/-!  ## C1: full drain and partial-failure durability -/

theorem runSyncTasks_fst {ν : Type} (oracle : Str → Except SyncErrClass ν) :
    ∀ (pending : List Str) (store : List (Str × ν)),
      (runSyncTasks oracle pending store).1 =
        pending.map fun id => (id, oracle id) := by
  intro pending
  induction pending with
  | nil => intro store; rfl
  | cons id rest ih =>
    intro store
    rw [runSyncTasks]
    simp [ih]

theorem runSyncTasks_lookup_not_pending {ν : Type}
    (oracle : Str → Except SyncErrClass ν) :
    ∀ (pending : List Str) (store : List (Str × ν)) (k : Str),
      k ∉ pending →
      mapLookup (runSyncTasks oracle pending store).2 k = mapLookup store k := by
  intro pending
  induction pending with
  | nil => intro store k _; rfl
  | cons id rest ih =>
    intro store k hk
    have hne : id ≠ k := fun h => hk (h ▸ List.mem_cons_self id rest)
    have hrest : k ∉ rest := fun h => hk (List.mem_cons_of_mem id h)
    rw [runSyncTasks]
    cases ho : oracle id with
    | ok v =>
      dsimp only
      rw [ih (mapInsert id v store) k hrest]
      exact mapLookup_insert_ne store id k v hne
    | error e =>
      dsimp only
      exact ih store k hrest

theorem runSyncTasks_durable {ν : Type} (oracle : Str → Except SyncErrClass ν) :
    ∀ (pending : List Str) (store : List (Str × ν)), pending.Nodup →
      ∀ (id : Str) (v : ν), id ∈ pending → oracle id = .ok v →
        mapLookup (runSyncTasks oracle pending store).2 id = some v := by
  intro pending
  induction pending with
  | nil =>
    intro store _ id v hid
    simp at hid
  | cons id0 rest ih =>
    intro store hnd id v hid hok
    have h1 : id0 ∉ rest := (List.nodup_cons.mp hnd).1
    have h2 : rest.Nodup := (List.nodup_cons.mp hnd).2
    rcases List.mem_cons.mp hid with rfl | hmem
    · rw [runSyncTasks, hok]
      dsimp only
      rw [runSyncTasks_lookup_not_pending oracle rest _ id h1]
      exact mapLookup_insert_self store id v
    · rw [runSyncTasks]
      cases ho : oracle id0 <;> dsimp only <;> exact ih _ h2 id v hmem hok

theorem aggregateResults_len {ν : Type} :
    ∀ outcomes : List (Str × Except SyncErrClass ν),
      (aggregateResults outcomes).1.length +
        (aggregateResults outcomes).2.length = outcomes.length := by
  intro outcomes
  induction outcomes with
  | nil => rfl
  | cons o rest ih =>
    obtain ⟨id, out⟩ := o
    cases out <;> simp [aggregateResults] <;> omega

theorem aggregateResults_mem_ok {ν : Type} :
    ∀ (outcomes : List (Str × Except SyncErrClass ν)) (id : Str) (v : ν),
      (id, v) ∈ (aggregateResults outcomes).1 ↔
        (id, Except.ok v) ∈ outcomes := by
  intro outcomes
  induction outcomes with
  | nil => intro id v; simp [aggregateResults]
  | cons o rest ih =>
    intro id v
    obtain ⟨id0, out⟩ := o
    cases out with
    | ok v0 => simp [aggregateResults, ih]
    | error e0 => simp [aggregateResults, ih]

theorem aggregateResults_mem_err {ν : Type} :
    ∀ (outcomes : List (Str × Except SyncErrClass ν)) (id : Str)
      (e : SyncErrClass),
      (id, e) ∈ (aggregateResults outcomes).2 ↔
        (id, Except.error e) ∈ outcomes := by
  intro outcomes
  induction outcomes with
  | nil => intro id e; simp [aggregateResults]
  | cons o rest ih =>
    intro id e
    obtain ⟨id0, out⟩ := o
    cases out with
    | ok v0 => simp [aggregateResults, ih]
    | error e0 => simp [aggregateResults, ih]

/-- C1: the scheduler drains the whole pending set (one outcome per pending
id, in order), the aggregate reports every success and every failure with its
classification and nothing else, and — for duplicate-free pending sets — every
item whose fetch succeeded is persisted and retrievable from the final store
no matter how its siblings fared. -/
theorem c1_partial_failure_durability {ν : Type}
    (oracle : Str → Except SyncErrClass ν) (pending : List Str)
    (store : List (Str × ν)) :
    (runSyncTasks oracle pending store).1.map Prod.fst = pending ∧
    ((aggregateResults (runSyncTasks oracle pending store).1).1.length +
        (aggregateResults (runSyncTasks oracle pending store).1).2.length =
      pending.length) ∧
    (∀ id e, (id, e) ∈
        (aggregateResults (runSyncTasks oracle pending store).1).2 ↔
      id ∈ pending ∧ oracle id = .error e) ∧
    (∀ id v, (id, v) ∈
        (aggregateResults (runSyncTasks oracle pending store).1).1 ↔
      id ∈ pending ∧ oracle id = .ok v) ∧
    (pending.Nodup → ∀ id v, id ∈ pending → oracle id = .ok v →
      mapLookup (runSyncTasks oracle pending store).2 id = some v) := by
  have hfst := runSyncTasks_fst oracle pending store
  refine ⟨by rw [hfst, List.map_map]; exact List.map_id pending, ?_, ?_, ?_, ?_⟩
  · rw [hfst, aggregateResults_len, List.length_map]
  · intro id e
    rw [aggregateResults_mem_err, hfst, List.mem_map]
    constructor
    · rintro ⟨a, ha, heq⟩
      have h1 : a = id := (Prod.ext_iff.mp heq).1
      have h2 : oracle a = .error e := (Prod.ext_iff.mp heq).2
      exact ⟨h1 ▸ ha, h1 ▸ h2⟩
    · rintro ⟨hmem, hok⟩
      exact ⟨id, hmem, by rw [hok]⟩
  · intro id v
    rw [aggregateResults_mem_ok, hfst, List.mem_map]
    constructor
    · rintro ⟨a, ha, heq⟩
      have h1 : a = id := (Prod.ext_iff.mp heq).1
      have h2 : oracle a = .ok v := (Prod.ext_iff.mp heq).2
      exact ⟨h1 ▸ ha, h1 ▸ h2⟩
    · rintro ⟨hmem, hok⟩
      exact ⟨id, hmem, by rw [hok]⟩
  · exact runSyncTasks_durable oracle pending store

/-- Witness for C1: with 3 of 5 concrete items failing, a successful item's
value is persisted and retrievable, and the aggregate reports exactly the 3
failures. -/
theorem c1_partial_failure_durability_witness :
    mapLookup (runSyncTasks c1Oracle c1Pending []).2 (("a").toList) =
      some 1 ∧
    (aggregateResults (runSyncTasks c1Oracle c1Pending []).1).2.length = 3 :=
  ⟨(c1_partial_failure_durability c1Oracle c1Pending []).2.2.2.2 (by decide)
      (("a").toList) 1 (by decide) rfl,
   by decide⟩

/-!  ## C4: the identity-set diff is exact -/

theorem countP_idCond {α : Type} (f : α → Str) (q : α → Bool) :
    ∀ (l : List α), (l.map f).Nodup → ∀ id : Str,
      l.countP (fun a => f a == id && q a) ≤ 1 ∧
      (l.countP (fun a => f a == id && q a) = 1 ↔
        ∃ a ∈ l, f a = id ∧ q a = true) := by
  intro l
  induction l with
  | nil => intro _ id; simp
  | cons a l' ih =>
    intro hnd id
    rw [List.map_cons, List.nodup_cons] at hnd
    obtain ⟨h1, h2⟩ := hnd
    have hcnt := List.countP_cons (fun x => f x == id && q x) a l'
    obtain ⟨ihle, ihiff⟩ := ih h2 id
    by_cases hfa : f a = id
    · have htail0 : l'.countP (fun x => f x == id && q x) = 0 := by
        rw [List.countP_eq_zero]
        intro b hb hpb
        simp only [Bool.and_eq_true, beq_iff_eq] at hpb
        exact h1 (by rw [hfa, ← hpb.1]; exact List.mem_map_of_mem f hb)
      by_cases hq : q a = true
      · have hpa : (f a == id && q a) = true := by simp [hfa, hq]
        refine ⟨by rw [hcnt, htail0, hpa]; simp, ?_, fun _ => ?_⟩
        · intro _
          exact ⟨a, List.mem_cons_self a l', hfa, hq⟩
        · rw [hcnt, htail0, hpa]
          simp
      · have hqf : q a = false := by revert hq; cases q a <;> simp
        have hpa : (f a == id && q a) = false := by simp [hqf]
        refine ⟨by rw [hcnt, htail0, hpa]; simp, ?_, ?_⟩
        · intro h
          rw [hcnt, htail0, hpa] at h
          simp at h
        · rintro ⟨b, hb, hfb, hqb⟩
          rcases List.mem_cons.mp hb with rfl | hb'
          · exact absurd hqb (by simp [hqf])
          · exact absurd (by simp [hfb, hqb] : (f b == id && q b) = true)
              (List.countP_eq_zero.mp htail0 b hb')
    · have hpa : (f a == id && q a) = false := by
        have hne : (f a == id) = false := by simp [hfa]
        simp [hne]
      have hstep : (a :: l').countP (fun x => f x == id && q x) =
          l'.countP (fun x => f x == id && q x) := by
        rw [hcnt, hpa]
        simp
      refine ⟨by rw [hstep]; exact ihle, ?_, ?_⟩
      · intro h
        obtain ⟨b, hb, hfb, hqb⟩ := ihiff.mp (by rw [hstep] at h; exact h)
        exact ⟨b, List.mem_cons_of_mem a hb, hfb, hqb⟩
      · rintro ⟨b, hb, hfb, hqb⟩
        rcases List.mem_cons.mp hb with rfl | hb'
        · exact absurd hfb hfa
        · rw [hstep]
          exact ihiff.mpr ⟨b, hb', hfb, hqb⟩

theorem countP_stale_filterMap (cond : ManifestVersion → Bool) :
    ∀ (l : List ManifestVersion) (id : Str),
      ((l.filterMap fun v => if cond v then some (v.id, true) else none).countP
        fun p => p.1 == id) =
      l.countP fun v => v.id == id && cond v := by
  intro l
  induction l with
  | nil => intro id; rfl
  | cons v l' ih =>
    intro id
    rw [List.filterMap_cons]
    by_cases hc : cond v = true
    · rw [if_pos hc]
      dsimp only
      rw [List.countP_cons, List.countP_cons, ih]
      simp [hc]
    · rw [if_neg hc]
      have hcf : cond v = false := by revert hc; cases cond v <;> simp
      rw [List.countP_cons, ih]
      simp [hcf]

theorem outOfDate_filterMap_eq (remote localVs : List ManifestVersion) :
    (localVs.filterMap fun l =>
        match remote.find? fun r => r.id == l.id with
        | none => none
        | some r => if l.time < r.time then some (l.id, true) else none) =
      localVs.filterMap fun l =>
        if staleLocal remote l then some (l.id, true) else none := by
  have hfg : (fun l : ManifestVersion =>
      match remote.find? fun r => r.id == l.id with
      | none => none
      | some r => if l.time < r.time then some (l.id, true) else none) =
      fun l => if staleLocal remote l then some (l.id, true) else none := by
    funext l
    unfold staleLocal
    cases hf : remote.find? fun r => r.id == l.id with
    | none => simp
    | some r => by_cases ht : l.time < r.time <;> simp [ht]
  rw [hfg]

theorem contains_pairs_iff :
    ∀ (l : List (Str × Str)) (x : Str × Str), l.contains x = true ↔ x ∈ l := by
  intro l
  induction l with
  | nil => intro x; simp
  | cons a rest ih =>
    intro x
    simp [List.contains_cons, ih]

theorem dedupPairsAux_mem :
    ∀ (l seen : List (Str × Str)) (p : Str × Str),
      p ∈ dedupPairsAux seen l ↔ p ∈ l ∧ ¬ seen.contains p = true := by
  intro l
  induction l with
  | nil => intro seen p; simp [dedupPairsAux]
  | cons q rest ih =>
    intro seen p
    rw [dedupPairsAux]
    by_cases hq : seen.contains q = true
    · rw [if_pos hq, ih]
      constructor
      · rintro ⟨hmem, hns⟩
        exact ⟨List.mem_cons_of_mem q hmem, hns⟩
      · rintro ⟨hmem, hns⟩
        rcases List.mem_cons.mp hmem with rfl | hmem'
        · exact absurd hq hns
        · exact ⟨hmem', hns⟩
    · rw [if_neg hq]
      constructor
      · intro hmem
        rcases List.mem_cons.mp hmem with rfl | hmem'
        · exact ⟨List.mem_cons_self p rest, hq⟩
        · obtain ⟨hr, hns⟩ := (ih (q :: seen) p).mp hmem'
          refine ⟨List.mem_cons_of_mem q hr, fun hc => hns ?_⟩
          simp only [List.contains_cons, Bool.or_eq_true]
          exact Or.inr hc
      · rintro ⟨hmem, hns⟩
        rcases List.mem_cons.mp hmem with rfl | hmem'
        · exact List.mem_cons_self p _
        · by_cases hpq : p = q
          · subst hpq
            exact List.mem_cons_self p _
          · refine List.mem_cons_of_mem q ((ih (q :: seen) p).mpr ⟨hmem', ?_⟩)
            intro hc
            simp only [List.contains_cons, Bool.or_eq_true, beq_iff_eq] at hc
            rcases hc with hc | hc
            · exact hpq hc
            · exact hns hc

theorem mem_dedupPairs (l : List (Str × Str)) (p : Str × Str) :
    p ∈ dedupPairs l ↔ p ∈ l := by
  rw [dedupPairs, dedupPairsAux_mem]
  simp

/-- C4: on first run every remote id is pending (forced), with an empty local
manifest the pending ids are exactly the remote ids, and in general — for
manifests with duplicate-free ids — an id occurs in the pending set exactly
once iff it is remote and is either absent locally or locally stale (strictly
older than its remote counterpart); it never occurs twice.  The forge
variant's pending pair set is exactly the remote pairs absent locally. -/
theorem c4_diff_pending_exact :
    (∀ remote : List ManifestVersion,
        mojangPendingIds remote none = remote.map fun v => (v.id, true)) ∧
    (∀ remote : List ManifestVersion,
        (mojangPendingIds remote (some [])).map Prod.fst =
          remote.map fun v => v.id) ∧
    (∀ (remote localVs : List ManifestVersion),
        (remote.map fun v => v.id).Nodup →
        (localVs.map fun v => v.id).Nodup →
        ∀ id : Str,
          (mojangPendingIds remote (some localVs)).countP
              (fun p => p.1 == id) ≤ 1 ∧
          ((mojangPendingIds remote (some localVs)).countP
              (fun p => p.1 == id) = 1 ↔
            (∃ r ∈ remote, r.id = id) ∧
              ((∀ l ∈ localVs, l.id ≠ id) ∨
                ∃ l ∈ localVs, l.id = id ∧ staleLocal remote l = true))) ∧
    (∀ (remotePairs localPairs : List (Str × List Str)) (p : Str × Str),
        p ∈ pendingForgePairs false remotePairs (some localPairs) ↔
          p ∈ flattenMaven remotePairs ∧ p ∉ flattenMaven localPairs) := by
  refine ⟨fun remote => rfl, ?_, ?_, ?_⟩
  · intro remote
    unfold mojangPendingIds
    simp [List.map_map]
  · intro remote localVs hr hl id
    have hpend : mojangPendingIds remote (some localVs) =
        ((remote.filter fun r => !(localVs.any fun l => l.id == r.id)).map
          fun r => (r.id, false)) ++
        (localVs.filterMap fun l =>
          match remote.find? fun r => r.id == l.id with
          | none => none
          | some r => if l.time < r.time then some (l.id, true) else none) :=
      rfl
    have hdiff_eq :
        (((remote.filter fun r => !(localVs.any fun l => l.id == r.id)).map
          fun r => (r.id, false)).countP fun p => p.1 == id) =
        remote.countP fun r =>
          r.id == id && !(localVs.any fun l => l.id == r.id) := by
      rw [List.countP_map, List.countP_filter]
      exact List.countP_congr fun x _ => Iff.rfl
    have hout_eq :
        ((localVs.filterMap fun l =>
          match remote.find? fun r => r.id == l.id with
          | none => none
          | some r =>
            if l.time < r.time then some (l.id, true) else none).countP
          fun p => p.1 == id) =
        localVs.countP fun l => l.id == id && staleLocal remote l := by
      rw [outOfDate_filterMap_eq, countP_stale_filterMap]
    obtain ⟨hdle, hdiff⟩ :=
      countP_idCond (fun v : ManifestVersion => v.id)
        (fun r => !(localVs.any fun l => l.id == r.id)) remote hr id
    obtain ⟨hole, hout⟩ :=
      countP_idCond (fun v : ManifestVersion => v.id) (staleLocal remote)
        localVs hl id
    have hAB : ¬((∃ r ∈ remote, r.id = id ∧
          (!(localVs.any fun l => l.id == r.id)) = true) ∧
        ∃ l ∈ localVs, l.id = id ∧ staleLocal remote l = true) := by
      rintro ⟨⟨r, hrm, hrid, hrq⟩, ⟨l, hlm, hlid, _⟩⟩
      rw [Bool.not_eq_true', List.any_eq_false] at hrq
      exact hrq l hlm (by simp [hlid, hrid])
    have hPiff : ((∃ r ∈ remote, r.id = id) ∧
          ((∀ l ∈ localVs, l.id ≠ id) ∨
            ∃ l ∈ localVs, l.id = id ∧ staleLocal remote l = true)) ↔
        ((∃ r ∈ remote, r.id = id ∧
            (!(localVs.any fun l => l.id == r.id)) = true) ∨
          ∃ l ∈ localVs, l.id = id ∧ staleLocal remote l = true) := by
      constructor
      · rintro ⟨⟨r, hrm, hrid⟩, hcase⟩
        rcases hcase with hnone | hB
        · refine Or.inl ⟨r, hrm, hrid, ?_⟩
          rw [Bool.not_eq_true', List.any_eq_false]
          intro l hlm hc
          exact hnone l hlm ((by simpa using hc : l.id = r.id).trans hrid)
        · exact Or.inr hB
      · rintro (⟨r, hrm, hrid, hrq⟩ | hB)
        · refine ⟨⟨r, hrm, hrid⟩, Or.inl ?_⟩
          rw [Bool.not_eq_true', List.any_eq_false] at hrq
          intro l hlm heq
          exact hrq l hlm (by simp [heq, hrid])
        · obtain ⟨l, hlm, hlid, hstale⟩ := hB
          refine ⟨?_, Or.inr ⟨l, hlm, hlid, hstale⟩⟩
          unfold staleLocal at hstale
          rcases hf : remote.find? fun r => r.id == l.id with _ | r
          · rw [hf] at hstale
            simp at hstale
          · have hrm := List.mem_of_find?_eq_some hf
            have hrid := List.find?_some hf
            exact ⟨r, hrm, by rw [(by simpa using hrid : r.id = l.id), hlid]⟩
    rw [hpend, List.countP_append, hdiff_eq, hout_eq]
    have hd01 : (remote.countP fun r =>
        r.id == id && !(localVs.any fun l => l.id == r.id)) = 0 ∨
        (remote.countP fun r =>
          r.id == id && !(localVs.any fun l => l.id == r.id)) = 1 := by
      omega
    have ho01 : (localVs.countP fun l =>
        l.id == id && staleLocal remote l) = 0 ∨
        (localVs.countP fun l => l.id == id && staleLocal remote l) = 1 := by
      omega
    constructor
    · rcases hd01 with h1 | h1 <;> rcases ho01 with h2 | h2 <;> try omega
      exfalso
      exact hAB ⟨hdiff.mp h1, hout.mp h2⟩
    · rw [hPiff]
      constructor
      · intro hsum
        rcases hd01 with h1 | h1
        · exact Or.inr (hout.mp (by omega))
        · exact Or.inl (hdiff.mp h1)
      · rintro (hA | hB)
        · have h1 := hdiff.mpr hA
          have h2 : (localVs.countP fun l =>
              l.id == id && staleLocal remote l) = 0 := by
            rcases ho01 with h2 | h2
            · exact h2
            · exact absurd ⟨hA, hout.mp h2⟩ hAB
          omega
        · have h2 := hout.mpr hB
          have h1 : (remote.countP fun r =>
              r.id == id && !(localVs.any fun l => l.id == r.id)) = 0 := by
            rcases hd01 with h1 | h1
            · exact h1
            · exact absurd ⟨hdiff.mp h1, hB⟩ hAB
          omega
  · intro remotePairs localPairs p
    show p ∈ (dedupPairs (flattenMaven remotePairs)).filter
        (fun p => !((flattenMaven localPairs).contains p)) ↔ _
    rw [List.mem_filter, mem_dedupPairs]
    constructor
    · rintro ⟨hmem, hnc⟩
      rw [Bool.not_eq_true'] at hnc
      refine ⟨hmem, fun hc => ?_⟩
      rw [← contains_pairs_iff] at hc
      exact absurd (hnc ▸ hc) (by simp)
    · rintro ⟨hmem, hnc⟩
      refine ⟨hmem, ?_⟩
      rw [Bool.not_eq_true']
      by_cases hc : (flattenMaven localPairs).contains p = true
      · exact absurd ((contains_pairs_iff _ p).mp hc) hnc
      · revert hc
        cases (flattenMaven localPairs).contains p <;> simp

/-- Witness for C4: with a concrete remote set and a stale local entry, the
stale id occurs in the pending set exactly once. -/
theorem c4_diff_pending_exact_witness :
    (mojangPendingIds c4Remote (some c4Local)).countP
      (fun p => p.1 == ("v1").toList) = 1 :=
  ((c4_diff_pending_exact.2.2.1 c4Remote c4Local (by decide) (by decide)
      (("v1").toList)).2).mpr
    ⟨⟨⟨(("v1").toList), 5⟩, by decide, rfl⟩,
     Or.inr ⟨⟨(("v1").toList), 3⟩, by decide, rfl, by decide⟩⟩

end Mcmeta